import Mathlib

/-!
Verification development for the kbol document-ingestion pipeline.

Shallow embedding of the Python sources:
* `src/kbol/tracking/document_tracker.py` (processing ledger),
* `src/kbol/indexer/core/chunker.py` (token-window chunker),
* `src/kbol/indexer/core/embedder.py` (batched embedding client),
* `src/kbol/indexer/core/processor.py` (per-document pipeline),
* `src/kbol/core/embedding.py` (cosine similarity used by search).

External collaborators (the SQL store, the file system, SHA-256, the
tokenizer, the HTTP embedding service) are modelled as explicit parameters:
the ledger table is a list of rows, the hash of a file's current bytes is a
function from path to digest, the tokenizer is a pair of functions, and the
outcome of each HTTP request is an input to the function under study.
-/

set_option autoImplicit false

namespace Kbol

/-! ### Processing ledger (`document_tracker.py`)

`ProcessingConfig` mirrors the dataclass fields (lines 15-21).
`LedgerEntry` mirrors the columns of `processed_documents` that
`should_process` and `record_processing` read and write.  The `status`
column is a SQL string, compared against the literal string `"failed"`
exactly as the Python does (line 117). -/

structure ProcessingConfig where
  chunk_size : Nat
  chunk_overlap : Nat
  embed_model : String
  processor_version : String
deriving DecidableEq

structure LedgerEntry where
  file_path : String
  file_hash : String
  chunk_size : Nat
  chunk_overlap : Nat
  embed_model : String
  processor_version : String
  chunks_count : Nat
  total_tokens : Nat
  status : String
  error_message : Option String
deriving DecidableEq

/-- The `WHERE` clause of the `SELECT` in `should_process` (lines 88-98):
the row must match the path, the current file hash, and all four
configuration columns. -/
def entryMatches (p fileHash : String) (c : ProcessingConfig) (e : LedgerEntry) : Bool :=
  e.file_path == p && e.file_hash == fileHash && e.chunk_size == c.chunk_size &&
    e.chunk_overlap == c.chunk_overlap && e.embed_model == c.embed_model &&
    e.processor_version == c.processor_version

/-- `DocumentTracker.should_process` (lines 64-120).  `fh` is the
composition of reading the file's current bytes with SHA-256
(`compute_file_hash`, lines 56-62); the ledger table is a list of rows and
`List.find?` plays the role of `cur.fetchone()` on the filtered query.
With `force` set, the Python returns before touching the file or the
database (lines 77-78); here that is visible as the result not depending on
`fh` or `ledger`. -/
def should_process (fh : String → String) (ledger : List LedgerEntry)
    (p : String) (c : ProcessingConfig) (force : Bool) : Bool × Option String :=
  if force then (true, none)
  else
    match ledger.find? (entryMatches p (fh p) c) with
    | none => (true, none)
    | some e => if e.status == "failed" then (true, e.error_message) else (false, none)

/-- Projection of a ledger row onto its stored configuration columns. -/
def configOf (e : LedgerEntry) : ProcessingConfig :=
  ⟨e.chunk_size, e.chunk_overlap, e.embed_model, e.processor_version⟩

/-- Two configs differing in exactly one of the four fields. -/
def DiffersInOneField (c c' : ProcessingConfig) : Prop :=
  (c'.chunk_size ≠ c.chunk_size ∧ c'.chunk_overlap = c.chunk_overlap ∧
    c'.embed_model = c.embed_model ∧ c'.processor_version = c.processor_version) ∨
  (c'.chunk_size = c.chunk_size ∧ c'.chunk_overlap ≠ c.chunk_overlap ∧
    c'.embed_model = c.embed_model ∧ c'.processor_version = c.processor_version) ∨
  (c'.chunk_size = c.chunk_size ∧ c'.chunk_overlap = c.chunk_overlap ∧
    c'.embed_model ≠ c.embed_model ∧ c'.processor_version = c.processor_version) ∨
  (c'.chunk_size = c.chunk_size ∧ c'.chunk_overlap = c.chunk_overlap ∧
    c'.embed_model = c.embed_model ∧ c'.processor_version ≠ c.processor_version)

/-- The ledger invariant: at most one row per `file_path`
(`processed_documents` is unique on `file_path`, which is what the
`ON CONFLICT (file_path)` upsert in `record_processing` relies on). -/
def UniquePaths (ledger : List LedgerEntry) : Prop :=
  List.Pairwise (fun a b => a.file_path ≠ b.file_path) ledger

/-! ### Embedding client (`embedder.py`)

`Embedder.get_embeddings_batch` posts one concurrent request per text and
gathers them with `return_exceptions=True` (lines 12-22); the per-request
outcome is therefore an input of the model.  A request either raised an
exception (captured by `gather`), or produced a response.  For a response,
the Python calls `response.json()` and then `result.get("embedding")`
(lines 29-30): `json()` raises when the body is not valid JSON —
`malformed` below — and that exception propagates out of
`get_embeddings_batch`, aborting the whole batch; a parseable body
contributes `result.get("embedding")`, i.e. the field's value when present
and `None` otherwise. -/

inductive ReqResult where
  | exn : ReqResult
  | malformed : ReqResult
  | parsed : Option (List ℚ) → ReqResult
deriving DecidableEq

/-- What the loop of lines 25-30 appends for one non-exception,
parseable-body response, and `none` for a captured exception. -/
def embOf : ReqResult → Option (List ℚ)
  | .exn => none
  | .malformed => none
  | .parsed e => e

/-- The result-collection loop (lines 23-32) over the gathered per-request
outcomes: `Except.error` models the uncaught exception from
`response.json()` on an unparseable body. -/
def collectEmbeddings : List ReqResult → Except Unit (List (Option (List ℚ)))
  | [] => .ok []
  | .exn :: rest =>
      match collectEmbeddings rest with
      | .error e => .error e
      | .ok l => .ok (none :: l)
  | .malformed :: _ => .error ()
  | .parsed e :: rest =>
      match collectEmbeddings rest with
      | .error er => .error er
      | .ok l => .ok (e :: l)

/-- `Embedder.get_embeddings_batch` (lines 10-32): one request per input
text, in input order; `oc i` is the outcome of the request for the `i`-th
text. -/
def get_embeddings_batch (oc : Nat → ReqResult) (texts : List String) :
    Except Unit (List (Option (List ℚ))) :=
  collectEmbeddings ((List.range texts.length).map oc)

/-! ### Chunker (`chunker.py`)

The tokenizer (`tiktoken.get_encoding("cl100k_base")`) is an opaque
external encoder; it is modelled as a pair of functions on token ids and
characters.  Python strings are modelled as `List Char`; `pyStrip` is
`str.strip()` restricted to the common whitespace characters, and
`pySlice` is Python's `l[a:b]` on signed indices.  Loop indices are `Int`,
as in Python, where `start = end - chunk_overlap` can in principle go
negative. -/

structure Tokenizer where
  encode : List Char → List Nat
  decode : List Nat → List Char

def isPySpace (c : Char) : Bool :=
  c == ' ' || c == '\t' || c == '\n' || c == '\r'

def pyStrip (cs : List Char) : List Char :=
  ((cs.dropWhile isPySpace).reverse.dropWhile isPySpace).reverse

/-- Python `l[a:b]`: negative indices count from the end, then both are
clamped to `[0, len]`. -/
def pySlice {α : Type} (l : List α) (a b : Int) : List α :=
  let n : Int := l.length
  let a' := if a < 0 then max (n + a) 0 else min a n
  let b' := if b < 0 then max (n + b) 0 else min b n
  (l.take b'.toNat).drop a'.toNat

/-- `text_segment.rindex('.')` guarded by `len(text_segment.split('.')) > 1`
(lines 32-35): the index of the last `'.'` when one occurs. -/
def rindexDot (cs : List Char) : Option Nat :=
  ((cs.enum.filter (fun pr => pr.2 == '.')).map (fun pr => pr.1)).getLast?

/-- `TextChunker.__init__` (lines 5-8): the two sizes are stored as given;
there is no validation of any kind. -/
structure TextChunker where
  chunk_size : Nat
  chunk_overlap : Nat
deriving DecidableEq

def TextChunker.init (chunk_size chunk_overlap : Nat) : TextChunker :=
  ⟨chunk_size, chunk_overlap⟩

/-- One iteration of the boundary walk (lines 21-39), at window start
`start`: returns the recorded `(start, min end len)` pair and the next
`start = end - chunk_overlap`, where `end` has been moved to
`overlap_start + rindex + 1` when the decoded overlap region contains a
`'.'` and the window is not final. -/
def chunkStep (tok : Tokenizer) (chunk_size chunk_overlap : Nat)
    (tokens : List Nat) (start : Int) : (Int × Int) × Int :=
  let len : Int := tokens.length
  let end0 : Int := start + chunk_size
  let e1 : Int :=
    if end0 < len then
      let overlap_start : Int := max 0 (end0 - chunk_overlap)
      match rindexDot (tok.decode (pySlice tokens overlap_start end0)) with
      | some last => overlap_start + (last : Int) + 1
      | none => end0
    else end0
  ((start, min e1 len), e1 - chunk_overlap)

/-- The `while start < len(tokens)` loop (lines 20-39), with explicit fuel:
`none` means the fuel ran out, i.e. this execution of the Python loop has
not terminated within `fuel` iterations. -/
def chunkLoop (tok : Tokenizer) (chunk_size chunk_overlap : Nat)
    (tokens : List Nat) : Nat → Int → Option (List (Int × Int))
  | 0, start => if start < (tokens.length : Int) then none else some []
  | fuel + 1, start =>
      if start < (tokens.length : Int) then
        let s := chunkStep tok chunk_size chunk_overlap tokens start
        match chunkLoop tok chunk_size chunk_overlap tokens fuel s.2 with
        | none => none
        | some rest => some (s.1 :: rest)
      else some []

/-- `TextChunker.chunk_text` (lines 10-48): empty-after-strip text yields
`[]`; otherwise each recorded `(start, end)` index pair is decoded,
stripped, and kept when non-empty.  `none` propagates fuel exhaustion of
the boundary walk. -/
def chunk_text (c : TextChunker) (tok : Tokenizer) (fuel : Nat)
    (text : List Char) : Option (List (List Char)) :=
  if pyStrip text = [] then some []
  else
    let tokens := tok.encode text
    match chunkLoop tok c.chunk_size c.chunk_overlap tokens fuel 0 with
    | none => none
    | some idxs =>
        some ((idxs.map (fun se => pyStrip (tok.decode (pySlice tokens se.1 se.2)))).filter
          (fun s => !s.isEmpty))

/-- Concrete tokenizer exhibiting the character-index/token-index
confusion of line 35-36.  Token ids 0-7 decode to the fragments below;
`encode` is the inverse on the two strings it is consulted on, so decoding
and re-encoding a chunk round-trips. -/
def fragC3 : Nat → List Char
  | 0 => "Xy".toList
  | 1 => "ab.".toList
  | 2 => "cd.".toList
  | 3 => "E3".toList
  | 4 => "E4".toList
  | 5 => "E5".toList
  | 6 => "E6".toList
  | 7 => "E7".toList
  | _ => []

def textC3 : List Char := "Xyab.cd.E3E4E5E6E7".toList

def bigChunkC3 : List Char := "Xyab.cd.E3E4E5E6".toList

def tokC3 : Tokenizer where
  encode cs :=
    if cs = textC3 then [0, 1, 2, 3, 4, 5, 6, 7]
    else if cs = bigChunkC3 then [0, 1, 2, 3, 4, 5, 6]
    else []
  decode ids := (ids.map fragC3).flatten

/-- Concrete tokenizer on which the boundary walk never advances: with
`chunk_size = 3`, `chunk_overlap = 2` the overlap region of the first
window decodes to `".a"`, whose last `'.'` is at character index 0, so
`end` becomes 2 and the next `start` is `2 - 2 = 0` again. -/
def fragC4 : Nat → List Char
  | 0 => "x".toList
  | 1 => ".".toList
  | 2 => "a".toList
  | 3 => "b".toList
  | _ => []

def textC4 : List Char := "x.ab".toList

def tokC4 : Tokenizer where
  encode cs := if cs = textC4 then [0, 1, 2, 3] else []
  decode ids := (ids.map fragC4).flatten

/-! ### Cosine similarity (`core/embedding.py`)

`cosine_similarity` computes `np.dot(a, b) / (np.linalg.norm(a) *
np.linalg.norm(b))` with no guard of any kind (lines 26-30).  IEEE-754
division is total: `0.0 / 0.0` is NaN (and `x / 0.0` for `x ≠ 0` is
`±inf`), which numpy returns rather than raising.  Vector components are
modelled as rationals, `PyFloat` adds the three non-finite float outcomes,
and the square root — irrational in general — is an abstract parameter
`sqrt`; only its values at the squared norms actually reached matter. -/

inductive PyFloat where
  | fin : ℚ → PyFloat
  | nan : PyFloat
  | inf : PyFloat
  | ninf : PyFloat
deriving DecidableEq

/-- IEEE-754 float division on finite operands. -/
def pyDiv (x y : ℚ) : PyFloat :=
  if y = 0 then (if x = 0 then .nan else if 0 < x then .inf else .ninf)
  else .fin (x / y)

def dotList (a b : List ℚ) : ℚ :=
  (List.zipWith (fun x y => x * y) a b).sum

/-- `cosine_similarity` (lines 26-30): `np.linalg.norm v` is
`sqrt (dotList v v)`. -/
def cosine_similarity (sqrt : ℚ → ℚ) (a b : List ℚ) : PyFloat :=
  pyDiv (dotList a b) (sqrt (dotList a a) * sqrt (dotList b b))

/-! ### Pipeline (`processor.py`)

`BookIndexer` drives extraction → chunking → embedding → persistence.  The
chunk dictionaries of lines 100-107 become `ChunkRec` (the `processed_at`
wall-clock timestamp is omitted: no claim mentions it).  The mutable
`self.stats` counters touched by `_process_chunks` become the `Stats`
record. -/

structure ChunkRec where
  book : String
  page : Nat
  content : String
  embedding : List ℚ
  token_count : Nat
deriving DecidableEq

structure Stats where
  total_chunks : Nat
  total_tokens : Nat
  failed_chunks : Nat
deriving DecidableEq

/-- The `zip(batch, embeddings)` loop of lines 98-112: a non-`None`
embedding appends a record and bumps `total_chunks`/`total_tokens`; a
`None` bumps `failed_chunks`.  `tokCount c` is
`len(self.chunker.tokenizer.encode(c))` (line 105). -/
def assemble (tokCount : String → Nat) (book : String) (page : Nat) :
    List (String × Option (List ℚ)) → Stats → List ChunkRec × Stats
  | [], stats => ([], stats)
  | (c, some v) :: rest, stats =>
      let r := assemble tokCount book page rest
        { stats with total_chunks := stats.total_chunks + 1,
                     total_tokens := stats.total_tokens + tokCount c }
      (⟨book, page, c, v, tokCount c⟩ :: r.1, r.2)
  | (_, none) :: rest, stats =>
      assemble tokCount book page rest
        { stats with failed_chunks := stats.failed_chunks + 1 }

/-- The retry loop of lines 85-95: attempts `attempt, attempt+1, …` until
one returns without raising, at most `remaining` of them; when the last
attempt also raises, the exception propagates (`raise`, line 94).  With
`remaining = 0` the Python never binds `embeddings` and the subsequent use
raises `NameError`; both surface as `Except.error`. -/
def retryGo {α : Type} (f : Nat → Except Unit α) : Nat → Nat → Except Unit α
  | _, 0 => .error ()
  | attempt, 1 => f attempt
  | attempt, r + 2 =>
      match f attempt with
      | .ok a => .ok a
      | .error _ => retryGo f (attempt + 1) (r + 1)

/-- `range(0, len(chunks), batch_size)` slicing (line 81-82): the list cut
into consecutive pieces of `bs` elements.  Fuel (`l.length` at the top
call) only matters for `bs = 0`, where the Python `range` raises
`ValueError` instead. -/
def toBatchesGo {α : Type} (bs : Nat) : Nat → List α → List (List α)
  | 0, _ => []
  | _, [] => []
  | fuel + 1, l => l.take bs :: toBatchesGo bs fuel (l.drop bs)

def toBatches {α : Type} (bs : Nat) (l : List α) : List (List α) :=
  toBatchesGo bs l.length l

/-- The per-batch body of `_process_chunks` (lines 81-117), batch by
batch: fetch embeddings with retries, zip the batch with them, accumulate
records and statistics.  `oc b a i` is the outcome of the request for the
`i`-th text of batch `b` on attempt `a`. -/
def processBatchesGo (maxRetries : Nat) (tokCount : String → Nat)
    (oc : Nat → Nat → Nat → ReqResult) (book : String) (page : Nat) :
    Nat → List (List String) → Stats → Except Unit (List ChunkRec × Stats)
  | _, [], stats => .ok ([], stats)
  | bIdx, b :: rest, stats =>
      match retryGo (fun a => get_embeddings_batch (oc bIdx a) b) 0 maxRetries with
      | .error e => .error e
      | .ok embs =>
          let r := assemble tokCount book page (b.zip embs) stats
          match processBatchesGo maxRetries tokCount oc book page (bIdx + 1) rest r.2 with
          | .error e => .error e
          | .ok (recs, stats') => .ok (r.1 ++ recs, stats')

/-- `BookIndexer._process_chunks` (lines 69-117). -/
def process_chunks (bs maxRetries : Nat) (tokCount : String → Nat)
    (oc : Nat → Nat → Nat → ReqResult) (book : String) (page : Nat)
    (chunks : List String) (stats : Stats) : Except Unit (List ChunkRec × Stats) :=
  processBatchesGo maxRetries tokCount oc book page 0 (toBatches bs chunks) stats

/-! #### Page loop and checkpointing (`process_pdf`, lines 158-188)

The per-document file system is the pair of the `.tmp.json` checkpoint and
the permanent output file, each `none` when absent.  A page is `none` when
`page.extract_text().strip()` is empty — the loop then `continue`s at line
166, before the checkpoint test — and otherwise carries the records
`_process_chunks` produced for it. -/

structure DocFS where
  temp : Option (List ChunkRec)
  output : Option (List ChunkRec)
deriving DecidableEq

def pageStep (fs : DocFS) (acc : List ChunkRec) (pnum : Nat)
    (page : Option (List ChunkRec)) : DocFS × List ChunkRec :=
  match page with
  | none => (fs, acc)
  | some cs =>
      let acc' := acc ++ cs
      (if pnum % 10 = 0 then { fs with temp := some acc' } else fs, acc')

/-- The `for page_num, page in enumerate(reader.pages, 1)` loop
(lines 161-184), from page number `pnum`. -/
def runPages (fs : DocFS) (acc : List ChunkRec) (pnum : Nat) :
    List (Option (List ChunkRec)) → DocFS × List ChunkRec
  | [] => (fs, acc)
  | pg :: rest =>
      let r := pageStep fs acc pnum pg
      runPages r.1 r.2 (pnum + 1) rest

/-- Lines 187-188: `_save_chunks(output_path, chunks)` then
`temp_path.unlink(missing_ok=True)`. -/
def finishDoc (fs : DocFS) (acc : List ChunkRec) : DocFS :=
  { fs with output := some acc, temp := none }

/-- The successful path of `process_pdf` through the loop and final save. -/
def process_pdf_pages (fs : DocFS) (pages : List (Option (List ChunkRec))) :
    DocFS × List ChunkRec :=
  let r := runPages fs [] 1 pages
  (finishDoc r.1 r.2, r.2)

/-- The chunks accumulated by the loop through page `k` (1-based). -/
def accThrough (pages : List (Option (List ChunkRec))) (k : Nat) : List ChunkRec :=
  ((pages.take k).filterMap id).flatten

/-- Page `k` executes the checkpoint write of line 181-182: it exists, is
non-blank, and its number is a positive multiple of 10. -/
def isCkpt (pages : List (Option (List ChunkRec))) (k : Nat) : Bool :=
  decide (k ≠ 0) && k % 10 == 0 &&
    (match pages[k - 1]? with
     | some (some _) => true
     | _ => false)

/-- The last page ≤ `i` at which a checkpoint write executed, if any. -/
def lastCkpt (pages : List (Option (List ChunkRec))) : Nat → Option Nat
  | 0 => none
  | i + 1 => if isCkpt pages (i + 1) then some (i + 1) else lastCkpt pages i

/-- The records contributed by the page at 0-based index `i`: none when the
page is blank or the index is out of range. -/
def pageChunksAt (pages : List (Option (List ChunkRec))) (i : Nat) : List ChunkRec :=
  match pages[i]? with
  | some (some cs) => cs
  | _ => []

/-- A fixed record and a ten-page document whose tenth page is blank, for
the checkpoint counterexample. -/
def cRecC7 : ChunkRec := ⟨"bk", 1, "t", [], 1⟩

def pagesC7 : List (Option (List ChunkRec)) :=
  List.replicate 9 (some [cRecC7]) ++ [none]

/-! #### Failure isolation (`process_pdf` lines 212-224, `process_books`
lines 254-266)

A document attempt is summarised by how the `try` body ends: `skip`
(`should_process` said no), `success` with the accumulated records, or
`raises` with the exception's message.  The shared state is the ledger
table and which temp files exist. -/

structure PipeState where
  ledger : List LedgerEntry
  temps : String → Bool

/-- The `ON CONFLICT (file_path) DO UPDATE` upsert of `record_processing`
(lines 161-194): replace the row for the path, or append a new one. -/
def upsert (ledger : List LedgerEntry) (e : LedgerEntry) : List LedgerEntry :=
  if ledger.any (fun x => x.file_path == e.file_path) then
    ledger.map (fun x => if x.file_path == e.file_path then e else x)
  else ledger ++ [e]

def lookupEntry (ledger : List LedgerEntry) (p : String) : Option LedgerEntry :=
  ledger.find? (fun x => x.file_path == p)

/-- `DocumentTracker.record_processing` (tracker lines 122-199) acting on
the ledger table; the current file hash is recomputed via `fh`.  (The
idempotent `processor_versions` insert touches a table no claim reads and
is not modelled.) -/
def record_processing (fh : String → String) (ledger : List LedgerEntry)
    (p : String) (c : ProcessingConfig) (chunks_count total_tokens : Nat)
    (status : String) (error_message : Option String) : List LedgerEntry :=
  upsert ledger ⟨p, fh p, c.chunk_size, c.chunk_overlap, c.embed_model,
    c.processor_version, chunks_count, total_tokens, status, error_message⟩

/-- `output_path.with_suffix(".tmp.json")` for this document (line 150);
only its per-document distinctness matters. -/
def tempName (p : String) : String := p ++ ".tmp.json"

def rmTemp (t : String → Bool) (name : String) : String → Bool :=
  fun q => if q = name then false else t q

inductive DocRun where
  | skip : DocRun
  | success : List ChunkRec → DocRun
  | raises : String → DocRun
deriving DecidableEq

def totTokens (cs : List ChunkRec) : Nat :=
  (cs.map (fun r => r.token_count)).sum

/-- `BookIndexer.process_pdf` at the document level.  On `skip`, return
`[]` (lines 134-139).  On success: final save, temp unlink, ledger record
with status `completed` and the chunk/token totals (lines 186-208).  On an
exception from the `try` body: ledger record with status `failed` and the
exception's message and zero counts, temp unlink, re-raise
(lines 212-224). -/
def process_pdf_run (fh : String → String) (cfg : ProcessingConfig)
    (st : PipeState) (p : String) (run : DocRun) :
    PipeState × Except String (List ChunkRec) :=
  match run with
  | .skip => (st, .ok [])
  | .success chunks =>
      ({ ledger := record_processing fh st.ledger p cfg chunks.length
           (totTokens chunks) "completed" none,
         temps := rmTemp st.temps (tempName p) }, .ok chunks)
  | .raises msg =>
      ({ ledger := record_processing fh st.ledger p cfg 0 0 "failed" (some msg),
         temps := rmTemp st.temps (tempName p) }, .error msg)

/-- `BookIndexer.process_books` (lines 254-266): each document's
`process_pdf` runs inside `try`; an exception is logged and the loop
continues with the next document, keeping the chunks of the documents that
succeeded. -/
def process_books_run (fh : String → String) (cfg : ProcessingConfig) :
    PipeState → List (String × DocRun) → PipeState × List ChunkRec
  | st, [] => (st, [])
  | st, (p, run) :: rest =>
      let r := process_pdf_run fh cfg st p run
      let got := match r.2 with | .ok cs => cs | .error _ => []
      let rr := process_books_run fh cfg r.1 rest
      (rr.1, got ++ rr.2)

theorem entryMatches_true_iff {p fileHash : String} {c : ProcessingConfig}
    {e : LedgerEntry} :
    entryMatches p fileHash c e = true ↔
      e.file_path = p ∧ e.file_hash = fileHash ∧ e.chunk_size = c.chunk_size ∧
        e.chunk_overlap = c.chunk_overlap ∧ e.embed_model = c.embed_model ∧
        e.processor_version = c.processor_version := by
  simp [entryMatches, Bool.and_eq_true, and_assoc]

theorem find?_eq_of_mem_uniquePaths {p fileHash : String} {c : ProcessingConfig}
    {ledger : List LedgerEntry} {e : LedgerEntry}
    (hu : UniquePaths ledger) (hmem : e ∈ ledger)
    (hm : entryMatches p fileHash c e = true) :
    ledger.find? (entryMatches p fileHash c) = some e := by
  induction ledger with
  | nil => cases hmem
  | cons x t ih =>
      rcases List.mem_cons.mp hmem with hx | ht
      · subst hx
        simp [List.find?, hm]
      · have hxe : x.file_path ≠ e.file_path := (List.pairwise_cons.mp hu).1 e ht
        have hxm : entryMatches p fileHash c x = false := by
          cases hcase : entryMatches p fileHash c x with
          | false => rfl
          | true =>
              exact absurd ((entryMatches_true_iff.mp hcase).1.trans
                (entryMatches_true_iff.mp hm).1.symm) hxe
        have hrest := ih (List.pairwise_cons.mp hu).2 ht
        simp [List.find?, hxm, hrest]

/-- Elements of a unique-path ledger are determined by their path. -/
theorem eq_of_mem_uniquePaths {ledger : List LedgerEntry} {e e' : LedgerEntry}
    (hu : UniquePaths ledger) (he : e ∈ ledger) (he' : e' ∈ ledger)
    (hp : e.file_path = e'.file_path) : e = e' := by
  induction ledger with
  | nil => cases he
  | cons x t ih =>
      rcases List.mem_cons.mp he with hx | htmem
      · rcases List.mem_cons.mp he' with hx' | htmem'
        · exact hx.trans hx'.symm
        · subst hx
          exact absurd hp ((List.pairwise_cons.mp hu).1 e' htmem')
      · rcases List.mem_cons.mp he' with hx' | htmem'
        · subst hx'
          exact absurd hp.symm ((List.pairwise_cons.mp hu).1 e htmem)
        · exact ih (List.pairwise_cons.mp hu).2 htmem htmem'

/-- C1.  `should_process` semantics: with `force` the answer is
`(true, none)` independently of the file contents and the ledger; without
`force`, a row for path `p` whose stored hash equals the hash of the
current bytes and whose stored configuration equals `c` yields
`(false, none)` when its status is `completed` and `(true, error_message)`
when its status is `failed`; if no row fully matches, the answer is
`(true, none)`. -/
theorem should_process_matches_spec (fh : String → String)
    (ledger : List LedgerEntry) (p : String) (c : ProcessingConfig) :
    should_process fh ledger p c true = (true, none) ∧
    (∀ e : LedgerEntry, UniquePaths ledger → e ∈ ledger →
      entryMatches p (fh p) c e = true →
      (e.status = "completed" → should_process fh ledger p c false = (false, none)) ∧
      (e.status = "failed" →
        should_process fh ledger p c false = (true, e.error_message))) ∧
    ((∀ e ∈ ledger, entryMatches p (fh p) c e = false) →
      should_process fh ledger p c false = (true, none)) := by
  refine ⟨rfl, ?_, ?_⟩
  · intro e hu hmem hm
    have hfind := find?_eq_of_mem_uniquePaths hu hmem hm
    constructor
    · intro hst
      simp [should_process, hfind, hst]
    · intro hst
      simp [should_process, hfind, hst]
  · intro hnone
    have hfind : ledger.find? (entryMatches p (fh p) c) = none := by
      rw [List.find?_eq_none]
      intro e hmem
      simp [hnone e hmem]
    simp [should_process, hfind]

/-- Witness for C1: a one-row ledger with a fully matching completed entry
is skipped, and the same call with `force` processes unconditionally. -/
theorem should_process_matches_spec_witness :
    should_process (fun _ => "h256") [⟨"b.pdf", "h256", 512, 50, "nomic-embed-text",
      "v1", 7, 100, "completed", none⟩] "b.pdf"
      ⟨512, 50, "nomic-embed-text", "v1"⟩ true = (true, none) ∧
    should_process (fun _ => "h256") [⟨"b.pdf", "h256", 512, 50, "nomic-embed-text",
      "v1", 7, 100, "completed", none⟩] "b.pdf"
      ⟨512, 50, "nomic-embed-text", "v1"⟩ false = (false, none) := by
  have h := should_process_matches_spec (fun _ => "h256")
    [⟨"b.pdf", "h256", 512, 50, "nomic-embed-text", "v1", 7, 100, "completed", none⟩]
    "b.pdf" ⟨512, 50, "nomic-embed-text", "v1"⟩
  refine ⟨h.1, ?_⟩
  exact (h.2.1 ⟨"b.pdf", "h256", 512, 50, "nomic-embed-text", "v1", 7, 100,
    "completed", none⟩ (by simp [UniquePaths]) (by simp) (by decide)).1 rfl

/-- C6.  Changing exactly one of the four configuration fields forces
reprocessing: if every row for path `p` carries configuration `c` (there is
at most one, by path uniqueness) and `c'` differs from `c` in exactly one
field, then `should_process` with `c'` answers `(true, none)` for every
file-hash function — in particular with the file bytes unchanged. -/
theorem config_change_invalidates_cache (fh : String → String)
    (ledger : List LedgerEntry) (p : String) (c c' : ProcessingConfig)
    (e : LedgerEntry) (hu : UniquePaths ledger) (hmem : e ∈ ledger)
    (hpath : e.file_path = p) (hcfg : configOf e = c)
    (hdiff : DiffersInOneField c c') :
    should_process fh ledger p c' false = (true, none) := by
  have hne : c' ≠ c := by
    rcases hdiff with ⟨h1, _, _, _⟩ | ⟨_, h2, _, _⟩ | ⟨_, _, h3, _⟩ | ⟨_, _, _, h4⟩ <;>
      · intro hcc
        subst hcc
        simp_all
  have hfind : ledger.find? (entryMatches p (fh p) c') = none := by
    rw [List.find?_eq_none]
    intro x hx
    intro hmatch
    have hxp : x.file_path = p := (entryMatches_true_iff.mp hmatch).1
    have hxe : x = e := eq_of_mem_uniquePaths hu hx hmem (hxp.trans hpath.symm)
    subst hxe
    have hxc : configOf x = c' := by
      rcases entryMatches_true_iff.mp hmatch with ⟨_, _, h3, h4, h5, h6⟩
      simp [configOf, h3, h4, h5, h6]
    exact hne (hxc.symm.trans hcfg)
  simp [should_process, hfind]

/-- Witness for C6: a completed entry recorded at overlap 50 no longer
matches after the overlap alone is changed to 64, with identical bytes. -/
theorem config_change_invalidates_cache_witness :
    should_process (fun _ => "h256") [⟨"b.pdf", "h256", 512, 50, "nomic-embed-text",
      "v1", 7, 100, "completed", none⟩] "b.pdf"
      ⟨512, 64, "nomic-embed-text", "v1"⟩ false = (true, none) := by
  refine config_change_invalidates_cache (fun _ => "h256") _ _
    ⟨512, 50, "nomic-embed-text", "v1"⟩ ⟨512, 64, "nomic-embed-text", "v1"⟩
    ⟨"b.pdf", "h256", 512, 50, "nomic-embed-text", "v1", 7, 100, "completed", none⟩
    (by simp [UniquePaths]) (by simp) rfl rfl ?_
  right; left
  refine ⟨rfl, ?_, rfl, rfl⟩
  decide

theorem collectEmbeddings_ok_of_no_malformed {rs : List ReqResult}
    (h : ∀ r ∈ rs, r ≠ ReqResult.malformed) :
    collectEmbeddings rs = .ok (rs.map embOf) := by
  induction rs with
  | nil => rfl
  | cons r rest ih =>
      have hrest : collectEmbeddings rest = .ok (rest.map embOf) :=
        ih (fun x hx => h x (List.mem_cons_of_mem r hx))
      cases r with
      | exn => simp [collectEmbeddings, hrest, embOf]
      | malformed => exact absurd rfl (h _ (List.mem_cons_self _ _))
      | parsed e => simp [collectEmbeddings, hrest, embOf]

/-- Counterexample to C2 as stated: a batch of two texts in which the
second request yields a response whose body is not valid JSON.  The
uncaught exception from `response.json()` aborts the whole call — no
length-2 result list with `None` at the failed position is returned, and
the first item's success is discarded with it. -/
theorem embed_batch_aborts_on_unparseable_body :
    get_embeddings_batch
      (fun i => if i == 0 then ReqResult.parsed (some [1]) else ReqResult.malformed)
      ["a", "b"] = .error () := by
  rfl

/-- C2 (amended).  As long as no response body fails JSON parsing, the
batch returns one element per input text in input order: the embedding
field at parsed successes and `None` at positions whose request raised or
whose parsed body lacks an `embedding` field.  (A response body that is
not valid JSON instead raises and aborts the whole batch — see
`embed_batch_aborts_on_unparseable_body`.) -/
theorem embed_batch_partial_failure (oc : Nat → ReqResult) (texts : List String)
    (hok : ∀ i, i < texts.length → oc i ≠ ReqResult.malformed) :
    ∃ l, get_embeddings_batch oc texts = .ok l ∧ l.length = texts.length ∧
      ∀ i, i < texts.length → l[i]? = some (embOf (oc i)) := by
  refine ⟨(List.range texts.length).map (fun i => embOf (oc i)), ?_, ?_, ?_⟩
  · have hno : ∀ r ∈ (List.range texts.length).map oc, r ≠ ReqResult.malformed := by
      intro r hr
      rcases List.mem_map.mp hr with ⟨i, hi, hri⟩
      exact hri ▸ hok i (List.mem_range.mp hi)
    rw [get_embeddings_batch, collectEmbeddings_ok_of_no_malformed hno,
      List.map_map]
    rfl
  · simp
  · intro i hi
    rw [List.getElem?_map, List.getElem?_range hi]
    rfl

/-- Witness for C2 (amended): three texts whose requests respectively
succeed, raise, and return a body without an `embedding` field produce
`[some [1, 2], none, none]`, length 3, in input order. -/
theorem embed_batch_partial_failure_witness :
    ∃ l, get_embeddings_batch
        (fun i => if i == 0 then ReqResult.parsed (some [1, 2])
          else if i == 1 then ReqResult.exn else ReqResult.parsed none)
        ["a", "b", "c"] = .ok l ∧ l.length = 3 ∧
      ∀ i, i < 3 → l[i]? = some (embOf (if i == 0 then ReqResult.parsed (some [1, 2])
          else if i == 1 then ReqResult.exn else ReqResult.parsed none)) := by
  have h := embed_batch_partial_failure
    (fun i => if i == 0 then ReqResult.parsed (some [1, 2])
      else if i == 1 then ReqResult.exn else ReqResult.parsed none)
    ["a", "b", "c"] (by decide)
  simpa using h

/-- C3 evaluation.  With `chunk_size = 3`, `chunk_overlap = 2`
(so `overlap < size`) and a tokenizer whose overlap region decodes to
`"ab.cd."`, line 35's `rindex('.')` returns the character index 5, which
line 36 adds to `overlap_start` as if it were a token offset: the first
recorded window is `(0, 7)` and the first returned chunk decodes from — and
re-encodes to — 7 tokens, more than twice `chunk_size`.  The claim that
every chunk holds at most `chunk_size` tokens (shrink only, never growth)
fails on the code. -/
theorem chunk_text_exceeds_chunk_size :
    chunk_text ⟨3, 2⟩ tokC3 20 textC3 =
      some [bigChunkC3, "E5E6E7".toList, "E6E7".toList, "E7".toList] ∧
    (tokC3.encode bigChunkC3).length = 7 ∧ ¬ (tokC3.encode bigChunkC3).length ≤ 3 := by
  refine ⟨by decide, by decide, by decide⟩

/-- C4 evaluation.  With `chunk_size = 3 > 2 = chunk_overlap` and a
four-token text whose second token decodes to `"."`, the first window's
overlap region decodes to `".a"`, `rindex('.')` is 0, `end` becomes 2, and
the next `start` is `2 - 2 = 0`: the boundary walk revisits `start = 0`
forever.  For every fuel bound the loop is still running, i.e. this
execution of `chunk_text` does not terminate, refuting termination for all
configurations with `overlap < size`. -/
theorem chunk_text_nonterminating :
    ∀ fuel : Nat, chunk_text ⟨3, 2⟩ tokC4 fuel textC4 = none := by
  have hstep : chunkStep tokC4 3 2 [0, 1, 2, 3] 0 = ((0, 2), 0) := by decide
  have hloop : ∀ fuel : Nat, chunkLoop tokC4 3 2 [0, 1, 2, 3] fuel 0 = none := by
    intro fuel
    induction fuel with
    | zero => rfl
    | succ f ih => simp [chunkLoop, hstep, ih]
  intro fuel
  have henc : tokC4.encode textC4 = [0, 1, 2, 3] := by decide
  have hne : ¬ pyStrip textC4 = [] := by decide
  simp only [chunk_text, if_neg hne, henc, hloop]

/-- C9 evaluation.  `TextChunker.__init__` performs no validation: the
constructor is a total function that records any `(chunk_size,
chunk_overlap)` pair as given, so `chunk_overlap ≥ chunk_size` is accepted
and no `InvalidConfig` error exists anywhere in the code. -/
theorem chunker_construction_unvalidated :
    TextChunker.init 2 2 = ⟨2, 2⟩ ∧
    ¬ (TextChunker.init 2 2).chunk_overlap < (TextChunker.init 2 2).chunk_size :=
  ⟨rfl, by decide⟩

/-- C8 evaluation.  At a zero-norm first argument the code performs the
division anyway: `dot = 0`, the denominator is `sqrt 0 * sqrt 1 = 0`, and
the result is NaN (`0.0 / 0.0`), not an `InvalidVector` error — no such
error exists anywhere in the repository, and `search_chunks` then compares
the NaN against the threshold.  The `sqrt` parameter is instantiated with
the identity, which agrees with the real square root on the two values 0
and 1 consulted here. -/
theorem cosine_similarity_zero_norm_nan :
    cosine_similarity (fun q => q) [0] [1] = PyFloat.nan ∧
    cosine_similarity (fun q => q) [0, 0] [3, 4] = PyFloat.nan := by
  constructor <;> norm_num [cosine_similarity, dotList, pyDiv]


theorem find?_map_congr {α : Type} (l : List α) (f : α → α) (p : α → Bool)
    (h : ∀ x ∈ l, p (f x) = p x ∧ (p x = true → f x = x)) :
    (l.map f).find? p = l.find? p := by
  induction l with
  | nil => rfl
  | cons x t ih =>
      have hx := h x (List.mem_cons_self x t)
      cases hpx : p x with
      | true =>
          simp [List.find?, hx.1, hpx, hx.2 hpx]
      | false =>
          have ht := ih (fun y hy => h y (List.mem_cons_of_mem x hy))
          simpa [List.find?, hx.1, hpx] using ht

theorem find?_append_of_none {α : Type} (l l2 : List α) (p : α → Bool)
    (h : l.find? p = none) :
    (l ++ l2).find? p = l2.find? p := by
  induction l with
  | nil => rfl
  | cons x t ih =>
      cases hpx : p x with
      | true => simp [List.find?, hpx] at h
      | false =>
          have ht : t.find? p = none := by
            simpa [List.find?, hpx] using h
          simpa [List.find?, hpx] using ih ht

theorem lookupEntry_upsert_self (l : List LedgerEntry) (e : LedgerEntry) :
    lookupEntry (upsert l e) e.file_path = some e := by
  rw [upsert]
  by_cases hany : l.any (fun x => x.file_path == e.file_path)
  · rw [if_pos hany, lookupEntry]
    induction l with
    | nil => cases hany
    | cons x t ih =>
        cases hx : (x.file_path == e.file_path) with
        | true => simp [List.find?, hx]
        | false =>
            have ht : t.any (fun y => y.file_path == e.file_path) := by
              rcases List.any_eq_true.mp hany with ⟨y, hy, hyp⟩
              rcases List.mem_cons.mp hy with hyx | hyt
              · subst hyx; simp [hx] at hyp
              · exact List.any_eq_true.mpr ⟨y, hyt, hyp⟩
            simpa [List.find?, hx] using ih ht
  · rw [if_neg hany, lookupEntry]
    have hnone : l.find? (fun x => x.file_path == e.file_path) = none := by
      rw [List.find?_eq_none]
      intro x hx hpx
      exact hany (List.any_eq_true.mpr ⟨x, hx, hpx⟩)
    rw [find?_append_of_none _ _ _ hnone]
    simp [List.find?]

theorem lookupEntry_upsert_ne (l : List LedgerEntry) (e : LedgerEntry)
    (q : String) (hq : q ≠ e.file_path) :
    lookupEntry (upsert l e) q = lookupEntry l q := by
  have hq' : (e.file_path == q) = false := by
    simp
    intro hh
    exact hq hh.symm
  rw [upsert]
  by_cases hany : l.any (fun x => x.file_path == e.file_path)
  · rw [if_pos hany, lookupEntry, lookupEntry]
    apply find?_map_congr
    intro x _
    cases hx : (x.file_path == e.file_path) with
    | true =>
        have hxp : x.file_path = e.file_path := by simpa using hx
        constructor
        · simp [hxp, hq']
        · intro hpx
          have hxq : x.file_path = q := by simpa using hpx
          exact absurd (hxq.symm.trans hxp) hq
    | false => simp [hx]
  · rw [if_neg hany, lookupEntry, lookupEntry]
    by_cases hfound : l.find? (fun x => x.file_path == q) = none
    · rw [find?_append_of_none _ _ _ hfound, hfound]
      simp [List.find?, hq']
    · rcases Option.ne_none_iff_exists'.mp hfound with ⟨y, hy⟩
      rw [hy]
      clear hfound hany
      induction l with
      | nil => cases hy
      | cons x t ih =>
          cases hpx : (x.file_path == q) with
          | true =>
              simp [List.find?, hpx] at hy ⊢
              exact hy
          | false =>
              have hy' : List.find? (fun x => x.file_path == q) t = some y := by
                simpa [List.find?, hpx] using hy
              simpa [List.find?, hpx] using ih hy'

theorem lookupEntry_record_self (fh : String → String) (l : List LedgerEntry)
    (p : String) (c : ProcessingConfig) (cc tt : Nat) (st : String)
    (em : Option String) :
    lookupEntry (record_processing fh l p c cc tt st em) p =
      some ⟨p, fh p, c.chunk_size, c.chunk_overlap, c.embed_model,
        c.processor_version, cc, tt, st, em⟩ :=
  lookupEntry_upsert_self l _

theorem lookupEntry_record_ne (fh : String → String) (l : List LedgerEntry)
    (p : String) (c : ProcessingConfig) (cc tt : Nat) (st : String)
    (em : Option String) (q : String) (hq : q ≠ p) :
    lookupEntry (record_processing fh l p c cc tt st em) q = lookupEntry l q :=
  lookupEntry_upsert_ne l _ q hq

/-- A batch run leaves untouched the ledger row of any path none of its
documents has. -/
theorem books_preserves_other (fh : String → String) (cfg : ProcessingConfig) :
    ∀ (docs : List (String × DocRun)) (st : PipeState) (q : String),
      (∀ pr ∈ docs, pr.1 ≠ q) →
      lookupEntry (process_books_run fh cfg st docs).1.ledger q =
        lookupEntry st.ledger q := by
  intro docs
  induction docs with
  | nil => intro st q _; rfl
  | cons d rest ih =>
      intro st q h
      obtain ⟨p, run⟩ := d
      have hne : q ≠ p := fun hqp =>
        (h (p, run) (List.mem_cons_self _ _)) hqp.symm
      have hrest := ih (process_pdf_run fh cfg st p run).1 q
        (fun pr hpr => h pr (List.mem_cons_of_mem _ hpr))
      rw [process_books_run]
      refine hrest.trans ?_
      cases run with
      | skip => rfl
      | success chunks => exact lookupEntry_record_ne fh _ p cfg _ _ _ _ q hne
      | raises msg => exact lookupEntry_record_ne fh _ p cfg _ _ _ _ q hne

/-- C5.  Failure isolation.  First part, `process_pdf`: when the `try` body
raises with message `msg`, the call re-raises, the ledger holds a `failed`
row for the path carrying that message (and zero counts), and the temp
checkpoint file is gone.  Second part, `process_books`: over any batch of
distinct document paths, the run processes every document — the returned
chunks are exactly the concatenation of the successful documents' chunks in
order — and afterwards every non-skipped document has a ledger row:
`completed` with its totals if it succeeded, `failed` with its message if
it raised. -/
theorem document_failure_isolated (fh : String → String) (cfg : ProcessingConfig) :
    (∀ (st : PipeState) (p msg : String),
      (process_pdf_run fh cfg st p (.raises msg)).2 = .error msg ∧
      lookupEntry (process_pdf_run fh cfg st p (.raises msg)).1.ledger p =
        some ⟨p, fh p, cfg.chunk_size, cfg.chunk_overlap, cfg.embed_model,
          cfg.processor_version, 0, 0, "failed", some msg⟩ ∧
      (process_pdf_run fh cfg st p (.raises msg)).1.temps (tempName p) = false) ∧
    (∀ (st : PipeState) (docs : List (String × DocRun)),
      List.Pairwise (fun a b => a.1 ≠ b.1) docs →
      (process_books_run fh cfg st docs).2 =
        (docs.map (fun pr =>
          match pr.2 with | .success cs => cs | _ => [])).flatten ∧
      ∀ pr ∈ docs,
        (∀ cs, pr.2 = DocRun.success cs →
          lookupEntry (process_books_run fh cfg st docs).1.ledger pr.1 =
            some ⟨pr.1, fh pr.1, cfg.chunk_size, cfg.chunk_overlap,
              cfg.embed_model, cfg.processor_version, cs.length, totTokens cs,
              "completed", none⟩) ∧
        (∀ msg, pr.2 = DocRun.raises msg →
          lookupEntry (process_books_run fh cfg st docs).1.ledger pr.1 =
            some ⟨pr.1, fh pr.1, cfg.chunk_size, cfg.chunk_overlap,
              cfg.embed_model, cfg.processor_version, 0, 0,
              "failed", some msg⟩)) := by
  constructor
  · intro st p msg
    refine ⟨rfl, ?_, ?_⟩
    · exact lookupEntry_record_self fh st.ledger p cfg 0 0 "failed" (some msg)
    · simp [process_pdf_run, rmTemp]
  · intro st docs
    induction docs generalizing st with
    | nil => intro _; exact ⟨rfl, by intro pr hpr; cases hpr⟩
    | cons d rest ih =>
        intro hpw
        obtain ⟨p, run⟩ := d
        have hpwrest := (List.pairwise_cons.mp hpw).2
        have hhead := (List.pairwise_cons.mp hpw).1
        have ihr := ih (process_pdf_run fh cfg st p run).1 hpwrest
        constructor
        · rw [process_books_run]
          rw [ihr.1]
          cases run <;> simp [process_pdf_run]
        · intro pr hpr
          rcases List.mem_cons.mp hpr with hd | hrest
          · subst hd
            have hothers : ∀ x ∈ rest, x.1 ≠ p := fun x hx =>
              (hhead x hx).symm
            constructor
            · intro cs hcs
              have hrun : run = DocRun.success cs := hcs
              subst hrun
              have hpres := books_preserves_other fh cfg rest
                (process_pdf_run fh cfg st p (DocRun.success cs)).1 p hothers
              rw [process_books_run]
              refine hpres.trans ?_
              exact lookupEntry_record_self fh st.ledger p cfg cs.length
                (totTokens cs) "completed" none
            · intro msg hmsg
              have hrun : run = DocRun.raises msg := hmsg
              subst hrun
              have hpres := books_preserves_other fh cfg rest
                (process_pdf_run fh cfg st p (DocRun.raises msg)).1 p hothers
              rw [process_books_run]
              refine hpres.trans ?_
              exact lookupEntry_record_self fh st.ledger p cfg 0 0
                "failed" (some msg)
          · have hres := ihr.2 pr hrest
            rw [process_books_run]
            exact hres

/-- Witness for C5: a three-document batch whose middle document raises
produces the two successful documents' chunks in order, and the failed
document ends with a `failed` ledger row carrying its message. -/
theorem document_failure_isolated_witness :
    (process_books_run (fun _ => "h") ⟨512, 50, "m", "v"⟩ ⟨[], fun _ => true⟩
        [("a.pdf", DocRun.success [⟨"a", 1, "c1", [], 3⟩]),
         ("b.pdf", DocRun.raises "boom"),
         ("c.pdf", DocRun.success [⟨"c", 1, "c2", [], 4⟩])]).2 =
      [⟨"a", 1, "c1", [], 3⟩, ⟨"c", 1, "c2", [], 4⟩] ∧
    lookupEntry (process_books_run (fun _ => "h") ⟨512, 50, "m", "v"⟩
        ⟨[], fun _ => true⟩
        [("a.pdf", DocRun.success [⟨"a", 1, "c1", [], 3⟩]),
         ("b.pdf", DocRun.raises "boom"),
         ("c.pdf", DocRun.success [⟨"c", 1, "c2", [], 4⟩])]).1.ledger "b.pdf" =
      some ⟨"b.pdf", "h", 512, 50, "m", "v", 0, 0, "failed", some "boom"⟩ ∧
    lookupEntry (process_books_run (fun _ => "h") ⟨512, 50, "m", "v"⟩
        ⟨[], fun _ => true⟩
        [("a.pdf", DocRun.success [⟨"a", 1, "c1", [], 3⟩]),
         ("b.pdf", DocRun.raises "boom"),
         ("c.pdf", DocRun.success [⟨"c", 1, "c2", [], 4⟩])]).1.ledger "c.pdf" =
      some ⟨"c.pdf", "h", 512, 50, "m", "v", 1, 4, "completed", none⟩ := by
  have h := (document_failure_isolated (fun _ => "h") ⟨512, 50, "m", "v"⟩).2
    ⟨[], fun _ => true⟩
    [("a.pdf", DocRun.success [⟨"a", 1, "c1", [], 3⟩]),
     ("b.pdf", DocRun.raises "boom"),
     ("c.pdf", DocRun.success [⟨"c", 1, "c2", [], 4⟩])] (by decide)
  refine ⟨h.1, ?_, ?_⟩
  · exact (h.2 ("b.pdf", DocRun.raises "boom") (by simp)).2 "boom" rfl
  · exact (h.2 ("c.pdf", DocRun.success [⟨"c", 1, "c2", [], 4⟩])
      (by simp)).1 [⟨"c", 1, "c2", [], 4⟩] rfl

theorem runPages_append (l1 l2 : List (Option (List ChunkRec))) :
    ∀ (fs : DocFS) (acc : List ChunkRec) (pnum : Nat),
      runPages fs acc pnum (l1 ++ l2) =
        runPages (runPages fs acc pnum l1).1 (runPages fs acc pnum l1).2
          (pnum + l1.length) l2 := by
  induction l1 with
  | nil => intro fs acc pnum; rfl
  | cons pg rest ih =>
      intro fs acc pnum
      have harith : pnum + (pg :: rest).length = (pnum + 1) + rest.length := by
        simp [List.length_cons]
        omega
      rw [List.cons_append, runPages, runPages, harith]
      exact ih _ _ _

theorem accThrough_succ (pages : List (Option (List ChunkRec))) (i : Nat) :
    accThrough pages (i + 1) = accThrough pages i ++ pageChunksAt pages i := by
  rw [accThrough, accThrough, pageChunksAt, List.take_succ,
    List.filterMap_append, List.flatten_append]
  congr 1
  cases h : pages[i]? with
  | none => simp
  | some pg => cases pg <;> simp

theorem runPages_take_succ (fs0 : DocFS) (pages : List (Option (List ChunkRec)))
    (i : Nat) :
    runPages fs0 [] 1 (pages.take (i + 1)) =
      (match pages[i]? with
       | none => runPages fs0 [] 1 (pages.take i)
       | some pg =>
           pageStep (runPages fs0 [] 1 (pages.take i)).1
             (runPages fs0 [] 1 (pages.take i)).2 (i + 1) pg) := by
  rw [List.take_succ]
  cases h : pages[i]? with
  | none => simp
  | some pg =>
      have hi : i < pages.length := by
        by_contra hge
        rw [List.getElem?_eq_none (Nat.le_of_not_lt hge)] at h
        cases h
      have hlen : (pages.take i).length = i := by
        simp [List.length_take, Nat.min_eq_left (Nat.le_of_lt hi)]
      rw [Option.toList_some, runPages_append, hlen]
      rw [runPages, runPages]
      rw [Nat.add_comm 1 i]

/-- C7 (amended).  Checkpoint discipline of the page loop: the permanent
output file is never touched during the loop — so interrupting after any
prefix of pages leaves it as it was, absent when it was absent; the
accumulated records after `i` pages are exactly the concatenation of the
non-blank pages' records among the first `i`; the temp checkpoint file
holds exactly the records accumulated through the last *executed*
checkpoint — the last non-blank page whose number is a multiple of 10 —
and is untouched when no checkpoint has executed (a blank page at a
multiple of 10 `continue`s before the checkpoint test, see the
counterexample).  On full success the permanent file is written once, with
all accumulated records, and the temp file is deleted. -/
theorem checkpoint_invariant (fs0 : DocFS) (pages : List (Option (List ChunkRec))) :
    (∀ i : Nat,
      (runPages fs0 [] 1 (pages.take i)).1.output = fs0.output ∧
      (runPages fs0 [] 1 (pages.take i)).2 = accThrough pages i ∧
      (runPages fs0 [] 1 (pages.take i)).1.temp =
        (match lastCkpt pages i with
         | none => fs0.temp
         | some k => some (accThrough pages k))) ∧
    (process_pdf_pages fs0 pages).1.output = some (accThrough pages pages.length) ∧
    (process_pdf_pages fs0 pages).1.temp = none := by
  have hmain : ∀ i : Nat,
      (runPages fs0 [] 1 (pages.take i)).1.output = fs0.output ∧
      (runPages fs0 [] 1 (pages.take i)).2 = accThrough pages i ∧
      (runPages fs0 [] 1 (pages.take i)).1.temp =
        (match lastCkpt pages i with
         | none => fs0.temp
         | some k => some (accThrough pages k)) := by
    intro i
    induction i with
    | zero => exact ⟨rfl, rfl, rfl⟩
    | succ i ih =>
        rw [runPages_take_succ]
        cases hpi : pages[i]? with
        | none =>
            have hck : isCkpt pages (i + 1) = false := by
              simp [isCkpt, hpi]
            have hacc : accThrough pages (i + 1) = accThrough pages i := by
              rw [accThrough_succ]
              simp [pageChunksAt, hpi]
            refine ⟨ih.1, ?_, ?_⟩
            · rw [hacc]; exact ih.2.1
            · rw [hacc] at *
              simp only [lastCkpt, hck, Bool.false_eq_true, if_false]
              exact ih.2.2
        | some pg =>
            cases pg with
            | none =>
                have hck : isCkpt pages (i + 1) = false := by
                  simp [isCkpt, hpi]
                have hacc : accThrough pages (i + 1) = accThrough pages i := by
                  rw [accThrough_succ]
                  simp [pageChunksAt, hpi]
                refine ⟨ih.1, ?_, ?_⟩
                · rw [hacc]; exact ih.2.1
                · simp only [pageStep, lastCkpt, hck, Bool.false_eq_true, if_false]
                  exact ih.2.2
            | some cs =>
                have hacc : accThrough pages (i + 1) = accThrough pages i ++ cs := by
                  rw [accThrough_succ]
                  simp [pageChunksAt, hpi]
                by_cases hmod : (i + 1) % 10 = 0
                · have hck : isCkpt pages (i + 1) = true := by
                    simp [isCkpt, hpi, hmod]
                  refine ⟨?_, ?_, ?_⟩
                  · simp only [pageStep, hmod, if_pos]
                    exact ih.1
                  · simp only [pageStep, hmod, if_pos]
                    rw [hacc, ih.2.1]
                  · simp only [pageStep, lastCkpt, hck, hmod, if_pos, if_true]
                    rw [hacc, ih.2.1]
                · have hck : isCkpt pages (i + 1) = false := by
                    simp [isCkpt, hpi, hmod]
                  refine ⟨?_, ?_, ?_⟩
                  · simp only [pageStep, hmod, if_neg, if_false]
                    exact ih.1
                  · simp only [pageStep, hmod, if_neg, if_false]
                    rw [hacc, ih.2.1]
                  · simp only [pageStep, lastCkpt, hck, hmod, Bool.false_eq_true,
                      if_neg, if_false]
                    exact ih.2.2
  refine ⟨hmain, ?_, rfl⟩
  have hfull := (hmain pages.length).2.1
  rw [List.take_length] at hfull
  show (finishDoc (runPages fs0 [] 1 pages).1 (runPages fs0 [] 1 pages).2).output = _
  rw [finishDoc]
  rw [hfull]

/-- Counterexample to C7 as stated: a ten-page document whose first nine
pages each yield a record and whose tenth page is blank.  The blank page
`continue`s at line 166, before the `page_num % 10 == 0` test, so after the
full ten-page interval the temp checkpoint file is still absent even though
nine pages of work have accumulated — the accumulated chunks were not
written after this checkpoint interval. -/
theorem checkpoint_skipped_on_blank_tenth_page :
    (runPages ⟨none, none⟩ [] 1 pagesC7).2 = List.replicate 9 cRecC7 ∧
    (runPages ⟨none, none⟩ [] 1 pagesC7).1.temp = none := by
  exact ⟨rfl, rfl⟩

theorem collectEmbeddings_ok_length {rs : List ReqResult}
    {l : List (Option (List ℚ))} (h : collectEmbeddings rs = .ok l) :
    l.length = rs.length := by
  induction rs generalizing l with
  | nil => cases h; rfl
  | cons r rest ih =>
      cases r with
      | exn =>
          rw [collectEmbeddings] at h
          cases hr : collectEmbeddings rest with
          | error e => rw [hr] at h; cases h
          | ok l0 => rw [hr] at h; cases h; simpa using ih hr
      | malformed => cases h
      | parsed e =>
          rw [collectEmbeddings] at h
          cases hr : collectEmbeddings rest with
          | error er => rw [hr] at h; cases h
          | ok l0 => rw [hr] at h; cases h; simpa using ih hr

theorem get_embeddings_batch_ok_length {oc : Nat → ReqResult}
    {texts : List String} {l : List (Option (List ℚ))}
    (h : get_embeddings_batch oc texts = .ok l) :
    l.length = texts.length := by
  have := collectEmbeddings_ok_length h
  simpa using this


theorem retryGo_ok {α : Type} {f : Nat → Except Unit α} {x : α} :
    ∀ {attempt r : Nat}, retryGo f attempt r = .ok x → ∃ a, f a = .ok x := by
  intro attempt r
  induction r generalizing attempt with
  | zero =>
      intro h
      simp only [retryGo] at h
      cases h
  | succ r ih =>
      intro h
      cases r with
      | zero =>
          simp only [retryGo] at h
          exact ⟨attempt, h⟩
      | succ r' =>
          simp only [retryGo] at h
          cases hf : f attempt with
          | ok a =>
              rw [hf] at h
              simp only [] at h
              exact ⟨attempt, by rw [hf, h]⟩
          | error e =>
              rw [hf] at h
              simp only [] at h
              exact ih h

theorem toBatchesGo_flatten {α : Type} (bs : Nat) (hbs : 1 ≤ bs) :
    ∀ (fuel : Nat) (l : List α), l.length ≤ fuel →
      (toBatchesGo bs fuel l).flatten = l := by
  intro fuel
  induction fuel with
  | zero =>
      intro l hl
      rw [Nat.le_zero, List.length_eq_zero] at hl
      subst hl
      rfl
  | succ f ih =>
      intro l hl
      cases l with
      | nil => rfl
      | cons x t =>
          have hstep : toBatchesGo bs (f + 1) (x :: t) =
              (x :: t).take bs :: toBatchesGo bs f ((x :: t).drop bs) := rfl
          have hdl : ((x :: t).drop bs).length ≤ f := by
            simp only [List.length_drop, List.length_cons] at hl ⊢
            omega
          rw [hstep, List.flatten_cons, ih _ hdl]
          exact List.take_append_drop bs (x :: t)

theorem toBatches_flatten {α : Type} (bs : Nat) (hbs : 1 ≤ bs) (l : List α) :
    (toBatches bs l).flatten = l :=
  toBatchesGo_flatten bs hbs l.length l (Nat.le_refl _)

theorem assemble_spec (tokCount : String → Nat) (book : String) (page : Nat) :
    ∀ (pairs : List (String × Option (List ℚ))) (stats : Stats),
      (assemble tokCount book page pairs stats).1 =
        pairs.filterMap (fun pr =>
          pr.2.map (fun v => ChunkRec.mk book page pr.1 v (tokCount pr.1))) ∧
      (assemble tokCount book page pairs stats).2.total_chunks =
        stats.total_chunks + (assemble tokCount book page pairs stats).1.length ∧
      (assemble tokCount book page pairs stats).2.total_chunks +
          (assemble tokCount book page pairs stats).2.failed_chunks =
        stats.total_chunks + stats.failed_chunks + pairs.length ∧
      (assemble tokCount book page pairs stats).2.total_tokens =
        stats.total_tokens +
          ((assemble tokCount book page pairs stats).1.map
            (fun r => r.token_count)).sum := by
  intro pairs
  induction pairs with
  | nil => intro stats; exact ⟨rfl, rfl, rfl, rfl⟩
  | cons pr rest ih =>
      intro stats
      obtain ⟨c, e⟩ := pr
      obtain ⟨tc, tt, fc⟩ := stats
      cases e with
      | some v =>
          obtain ⟨i1, i2, i3, i4⟩ := ih ⟨tc + 1, tt + tokCount c, fc⟩
          dsimp only at i1 i2 i3 i4
          refine ⟨?_, ?_, ?_, ?_⟩
          · simp only [assemble, List.filterMap_cons, Option.map_some']
            rw [i1]
          · simp only [assemble]
            rw [i2, i1]
            simp only [List.length_cons]
            omega
          · simp only [assemble]
            rw [i3]
            simp only [List.length_cons]
            omega
          · simp only [assemble]
            rw [i4, i1]
            simp only [List.map_cons, List.sum_cons]
            omega
      | none =>
          obtain ⟨i1, i2, i3, i4⟩ := ih ⟨tc, tt, fc + 1⟩
          dsimp only at i1 i2 i3 i4
          refine ⟨?_, ?_, ?_, ?_⟩
          · simp only [assemble, List.filterMap_cons, Option.map_none']
            rw [i1]
          · simp only [assemble]
            rw [i2]
          · simp only [assemble]
            rw [i3]
            simp only [List.length_cons]
            omega
          · simp only [assemble]
            rw [i4]

theorem processBatches_spec (maxRetries : Nat) (tokCount : String → Nat)
    (oc : Nat → Nat → Nat → ReqResult) (book : String) (page : Nat) :
    ∀ (batches : List (List String)) (bIdx : Nat) (stats : Stats)
      (recs : List ChunkRec) (stats' : Stats),
      processBatchesGo maxRetries tokCount oc book page bIdx batches stats =
        .ok (recs, stats') →
      ∃ embs : List (Option (List ℚ)),
        embs.length = batches.flatten.length ∧
        recs = (batches.flatten.zip embs).filterMap (fun pr =>
          pr.2.map (fun v => ChunkRec.mk book page pr.1 v (tokCount pr.1))) ∧
        stats'.total_chunks = stats.total_chunks + recs.length ∧
        stats'.total_chunks + stats'.failed_chunks =
          stats.total_chunks + stats.failed_chunks + batches.flatten.length ∧
        stats'.total_tokens =
          stats.total_tokens + (recs.map (fun r => r.token_count)).sum := by
  intro batches
  induction batches with
  | nil =>
      intro bIdx stats recs stats' h
      simp only [processBatchesGo] at h
      have hx : ([] : List ChunkRec) = recs ∧ stats = stats' := by
        simpa using h
      obtain ⟨hr, hs⟩ := hx
      subst hr
      subst hs
      exact ⟨[], by simp, by simp, by simp, by simp, by simp⟩
  | cons b rest ih =>
      intro bIdx stats recs stats' h
      simp only [processBatchesGo] at h
      cases hr : retryGo (fun a => get_embeddings_batch (oc bIdx a) b) 0 maxRetries with
      | error e => rw [hr] at h; cases h
      | ok embs0 =>
          rw [hr] at h
          dsimp only at h
          cases hrec : processBatchesGo maxRetries tokCount oc book page (bIdx + 1)
              rest (assemble tokCount book page (b.zip embs0) stats).2 with
          | error e => rw [hrec] at h; cases h
          | ok out =>
              obtain ⟨recs1, stats1⟩ := out
              rw [hrec] at h
              have hx : (assemble tokCount book page (b.zip embs0) stats).1 ++ recs1
                  = recs ∧ stats1 = stats' := by
                simpa using h
              obtain ⟨hrecs, hs1⟩ := hx
              subst hs1
              obtain ⟨a, ha⟩ := retryGo_ok hr
              have hlen0 : embs0.length = b.length := get_embeddings_batch_ok_length ha
              have hziplen : (b.zip embs0).length = b.length := by
                rw [List.length_zip, hlen0, Nat.min_self]
              obtain ⟨embsR, j1, j2, j3, j4, j5⟩ := ih (bIdx + 1) _ recs1 stats1 hrec
              obtain ⟨a1, a2, a3, a4⟩ :=
                assemble_spec tokCount book page (b.zip embs0) stats
              refine ⟨embs0 ++ embsR, ?_, ?_, ?_, ?_, ?_⟩
              · simp [hlen0, j1]
              · rw [List.flatten_cons, List.zip_append hlen0.symm,
                  List.filterMap_append, ← j2, ← a1, hrecs]
              · rw [← hrecs, List.length_append]
                rw [j3, a2]
                omega
              · rw [List.flatten_cons, List.length_append]
                have := a3
                rw [hziplen] at this
                omega
              · rw [← hrecs, List.map_append, List.sum_append]
                rw [j5, a4]
                omega

/-- C10.  Exactly-once accounting of `_process_chunks`: whenever the call
returns normally on `N` chunk strings (batch size ≥ 1, as Python's `range`
requires), `total_chunks + failed_chunks` grows by exactly `N`,
`total_chunks` grows by exactly the number of returned records,
`total_tokens` grows by exactly the sum of the returned records' token
counts, and the returned records are exactly the successfully embedded
chunks in input order — the `filterMap` of the input chunks zipped with
their per-position embedding results. -/
theorem process_chunks_exact_accounting (bs maxRetries : Nat)
    (tokCount : String → Nat) (oc : Nat → Nat → Nat → ReqResult)
    (book : String) (page : Nat) (chunks : List String) (stats : Stats)
    (recs : List ChunkRec) (stats' : Stats) (hbs : 1 ≤ bs)
    (hret : process_chunks bs maxRetries tokCount oc book page chunks stats =
      .ok (recs, stats')) :
    stats'.total_chunks + stats'.failed_chunks =
      stats.total_chunks + stats.failed_chunks + chunks.length ∧
    stats'.total_chunks = stats.total_chunks + recs.length ∧
    stats'.total_tokens =
      stats.total_tokens + (recs.map (fun r => r.token_count)).sum ∧
    ∃ embs : List (Option (List ℚ)), embs.length = chunks.length ∧
      recs = (chunks.zip embs).filterMap (fun pr =>
        pr.2.map (fun v => ChunkRec.mk book page pr.1 v (tokCount pr.1))) := by
  have h := processBatches_spec maxRetries tokCount oc book page
    (toBatches bs chunks) 0 stats recs stats' hret
  rw [toBatches_flatten bs hbs] at h
  obtain ⟨embs, h1, h2, h3, h4, h5⟩ := h
  exact ⟨h4, h3, h5, embs, h1, h2⟩

/-- Witness for C10: three chunk strings in batches of two, where the
second request of batch 0 raises and batch 1 succeeds on its second
attempt, yield two records (`"aa"`, `"cc"`), one failed chunk, and token
total 4 — exactly-once accounting at a concrete input. -/
theorem process_chunks_exact_accounting_witness :
    (⟨2, 4, 1⟩ : Stats).total_chunks + (⟨2, 4, 1⟩ : Stats).failed_chunks =
      (⟨0, 0, 0⟩ : Stats).total_chunks + (⟨0, 0, 0⟩ : Stats).failed_chunks +
        (["aa", "b", "cc"] : List String).length ∧
    (⟨2, 4, 1⟩ : Stats).total_chunks = (⟨0, 0, 0⟩ : Stats).total_chunks +
      ([⟨"bk", 4, "aa", [], 2⟩, ⟨"bk", 4, "cc", [], 2⟩] : List ChunkRec).length ∧
    (⟨2, 4, 1⟩ : Stats).total_tokens = (⟨0, 0, 0⟩ : Stats).total_tokens +
      (([⟨"bk", 4, "aa", [], 2⟩, ⟨"bk", 4, "cc", [], 2⟩] : List ChunkRec).map
        (fun r => r.token_count)).sum ∧
    ∃ embs : List (Option (List ℚ)), embs.length = 3 ∧
      ([⟨"bk", 4, "aa", [], 2⟩, ⟨"bk", 4, "cc", [], 2⟩] : List ChunkRec) =
        ((["aa", "b", "cc"] : List String).zip embs).filterMap (fun pr =>
          pr.2.map (fun v => ChunkRec.mk "bk" 4 pr.1 v pr.1.length)) := by
  exact process_chunks_exact_accounting 2 3 String.length
    (fun b a i =>
      if b == 0 then (if i == 0 then ReqResult.parsed (some []) else ReqResult.exn)
      else (if a == 0 then ReqResult.malformed else ReqResult.parsed (some [])))
    "bk" 4 ["aa", "b", "cc"] ⟨0, 0, 0⟩
    [⟨"bk", 4, "aa", [], 2⟩, ⟨"bk", 4, "cc", [], 2⟩] ⟨2, 4, 1⟩
    (by decide) (by rfl)
